import Mathlib

/-!
Verification of the IntelliRead document ingestion and retrieval pipeline.

Strings are modelled as `List Char`; JavaScript string primitives
(`trim`, `split(/\s+/)`, `toLowerCase`, `includes`, `charCodeAt`) are given
explicit executable models.  Floating point arithmetic is idealised:
bucket counts use `ℚ` and normalised embeddings / similarity scores use `ℝ`.
JavaScript 32-bit integer wrap-around (`hash & hash`, `<< 5`) is modelled
exactly on `ℤ`.
-/

namespace IR

/-- JS whitespace test used by `trim` and the `\s` character class. -/
def ws (c : Char) : Bool := c.isWhitespace

/-- Sentence terminator characters `.`, `!`, `?`. -/
def isTerm (c : Char) : Bool := c == '.' || c == '!' || c == '?'

/-- Left trim: drop leading whitespace. -/
def trimL (s : List Char) : List Char := s.dropWhile ws

/-- Right trim: drop trailing whitespace. -/
def trimR (s : List Char) : List Char := (s.reverse.dropWhile ws).reverse

/-- Model of JavaScript `String.prototype.trim`. -/
def trim (s : List Char) : List Char := trimR (trimL s)

/-- Model of JavaScript `String.prototype.toLowerCase` (per character). -/
def jsToLower (s : List Char) : List Char := s.map Char.toLower

/-- Join a list of strings with a separator, as JS `Array.prototype.join`. -/
def joinSep (sep : List Char) : List (List Char) → List Char
  | [] => []
  | [x] => x
  | x :: y :: rest => x ++ sep ++ joinSep sep (y :: rest)

/-- Model of JavaScript `split(/\s+/)`: pieces between maximal whitespace
runs, keeping the empty leading/trailing pieces JS produces. -/
def splitWsAux : List Char → List Char → List (List Char)
  | [], acc => [acc.reverse]
  | c :: rest, acc =>
    if ws c then acc.reverse :: splitWsAux (rest.dropWhile ws) []
    else splitWsAux rest (c :: acc)
termination_by s _ => s.length
decreasing_by
  · exact Nat.lt_succ_of_le ((rest.dropWhile_sublist ws).length_le)
  · exact Nat.lt_succ_self _

def splitWs (s : List Char) : List (List Char) := splitWsAux s []

/-!
## Sentence splitting (textChunker.ts)

`createSentenceBoundaryChunks` splits its input with the global regex
`/[^.!?]+[.!?]+(?=\s|$)/g`.  A match at a given position consists of a
maximal nonempty run of non-terminator characters, a maximal nonempty run
of terminators, and succeeds only when the following character is
whitespace or the string ends (the lookahead consumes nothing).  The
regex engine's backtracking cannot produce any other match at that
position, so maximal-munch is a faithful model.
-/

/-- One attempted match of `[^.!?]+[.!?]+(?=\s|$)` at the head of `s`:
returns the matched text and the unconsumed remainder. -/
def tryMatch (s : List Char) : Option (List Char × List Char) :=
  let run1 := s.takeWhile (fun c => !isTerm c)
  let rest1 := s.dropWhile (fun c => !isTerm c)
  if run1.isEmpty then none
  else
    let run2 := rest1.takeWhile isTerm
    let rest2 := rest1.dropWhile isTerm
    if run2.isEmpty then none
    else
      match rest2 with
      | [] => some (run1 ++ run2, [])
      | c :: _ => if ws c then some (run1 ++ run2, rest2) else none

/-- All matches of `/[^.!?]+[.!?]+(?=\s|$)/g`: find the leftmost match,
emit it, and continue from the unconsumed remainder (the lookahead
position); if no match starts at the current position, advance one
character.  Structured with explicit fuel (one unit per character) so the
scan stays kernel-computable; `matchAll` supplies sufficient fuel. -/
def matchAllF : Nat → List Char → List (List Char)
  | 0, _ => []
  | _ + 1, [] => []
  | fuel + 1, c :: rest =>
    match tryMatch (c :: rest) with
    | some (m, r) => m :: matchAllF fuel r
    | none => matchAllF fuel rest

def matchAll (s : List Char) : List (List Char) := matchAllF s.length s


/-- `text.match(regex) || [text]`: the sentence list used by the chunker. -/
def sentencesOf (s : List Char) : List (List Char) :=
  match matchAll s with
  | [] => [s]
  | ms => ms

/-- Measure used to bound the chunker's buffer: each sentence contributes
its trimmed length plus one (for the joining space). -/
def matchWeight (ms : List (List Char)) : Nat :=
  (ms.map fun m => (trim m).length + 1).sum

/-- Weight of the chunker's running buffer under the same measure. -/
def bufWeight (l : List Char) : Nat := if l = [] then 0 else l.length + 1

/-!
## Sentence-boundary chunker (textChunker.ts, `createSentenceBoundaryChunks`)
-/

structure TextChunk where
  text : List Char
  startOffset : Nat
  endOffset : Nat
  chunkIndex : Nat
deriving Repr, DecidableEq

/-- Loop state: accumulated chunks, current buffer, start offset, index. -/
structure ChunkState where
  chunks : List TextChunk
  currentChunk : List Char
  startOffset : Nat
  chunkIndex : Nat
deriving Repr, DecidableEq

/-- One iteration of the `for (const sentence of sentences)` loop. -/
def chunkStep (targetSize maxSize : Nat) (st : ChunkState) (sentence : List Char) :
    ChunkState :=
  let trimmedSentence := trim sentence
  if trimmedSentence.isEmpty then st
  else
    let potentialChunk :=
      st.currentChunk ++ (if st.currentChunk.isEmpty then [] else [' ']) ++ trimmedSentence
    if maxSize < potentialChunk.length ∧ 100 < st.currentChunk.length then
      { chunks := st.chunks ++
          [⟨trim st.currentChunk, st.startOffset,
            st.startOffset + st.currentChunk.length, st.chunkIndex⟩]
        currentChunk := trimmedSentence
        startOffset := st.startOffset + st.currentChunk.length
        chunkIndex := st.chunkIndex + 1 }
    else if targetSize ≤ potentialChunk.length ∧ 300 < st.currentChunk.length then
      { chunks := st.chunks ++
          [⟨trim st.currentChunk, st.startOffset,
            st.startOffset + st.currentChunk.length, st.chunkIndex⟩]
        currentChunk := trimmedSentence
        startOffset := st.startOffset + st.currentChunk.length
        chunkIndex := st.chunkIndex + 1 }
    else
      { st with currentChunk := potentialChunk }

/-- Model of `createSentenceBoundaryChunks(text, targetSize = 800, maxSize = 1200)`. -/
def createSentenceBoundaryChunks (text : List Char)
    (targetSize : Nat := 800) (maxSize : Nat := 1200) : List TextChunk :=
  let st := (sentencesOf text).foldl (chunkStep targetSize maxSize)
    ⟨[], [], 0, 0⟩
  if 50 < (trim st.currentChunk).length then
    st.chunks ++
      [⟨trim st.currentChunk, st.startOffset,
        st.startOffset + st.currentChunk.length, st.chunkIndex⟩]
  else
    st.chunks

/-!
## Embedding and retrieval (vectorSearch.ts)
-/

/-- Wrap an integer to the signed 32-bit range, as JS `x & x` / `ToInt32`. -/
def wrap32 (n : Int) : Int := (n + 2 ^ 31) % 2 ^ 32 - 2 ^ 31

/-- The rolling string hash: `hash = ((hash << 5) - hash) + charCode` followed
by `hash = hash & hash`; `<< 5` wraps to 32-bit before the subtraction. -/
def hashString (word : List Char) : Int :=
  word.foldl (fun hash c => wrap32 (wrap32 (hash * 32) - hash + c.toNat)) 0

/-- `embedding[index] += v` on a list. -/
def listAddAt (l : List ℚ) (index : Nat) (v : ℚ) : List ℚ :=
  l.set index (l.getD index 0 + v)

/-- The 128 bucket counts accumulated by `generateEmbedding` before
normalization: `+1` at the hash bucket and `+0.5` at the positional bucket. -/
def rawEmbedding (text : List Char) : List ℚ :=
  let words := splitWs (jsToLower text)
  words.enum.foldl
    (fun embedding iw =>
      let index := (hashString iw.2).natAbs % 128
      let embedding1 := listAddAt embedding index 1
      let posIndex := (index + iw.1) % 128
      listAddAt embedding1 posIndex (1 / 2))
    (List.replicate 128 0)

/-- `reduce((sum, val) => sum + val * val, 0)`. -/
def sumSq (l : List ℝ) : ℝ := (l.map fun x => x * x).sum

/-- Model of `generateEmbedding`: bucket counts, then L2 normalization,
skipped when the magnitude is not positive. -/
noncomputable def generateEmbedding (text : List Char) : List ℝ :=
  let embedding := List.map (fun q : ℚ => (q : ℝ)) (rawEmbedding text)
  let magnitude := Real.sqrt (sumSq embedding)
  if 0 < magnitude then embedding.map (fun x => x / magnitude) else embedding

/-- Model of `cosineSimilarity`. -/
noncomputable def cosineSimilarity (vecA vecB : List ℝ) : ℝ :=
  if vecA.length ≠ vecB.length then 0
  else
    let dotProduct := (List.zipWith (fun a b => a * b) vecA vecB).sum
    let denominator := Real.sqrt (sumSq vecA) * Real.sqrt (sumSq vecB)
    if denominator = 0 then 0 else dotProduct / denominator

/-- JS `hay.includes(needle)` (substring containment). -/
def containsSub (hay needle : List Char) : Bool :=
  hay.tails.any fun t => needle.isPrefixOf t

/-- The chunk record consumed by retrieval (fields of `@/types` `Chunk`
that the core reads). -/
structure Chunk where
  id : List Char
  documentId : List Char
  text : List Char
  page : Nat
  sectionTitle : List Char
  embedding : List ℝ

/-- A chunk together with its retrieval score (`{ ...chunk, score }`). -/
structure ScoredChunk where
  chunk : Chunk
  score : ℝ

/-- Model of `searchChunks(query, chunks, topK = 5)`: cosine similarity
against the query embedding, `+0.1` per query word contained in the chunk
text, sort by descending score, take the first `topK`. -/
noncomputable def searchChunks (query : List Char) (chunks : List Chunk)
    (topK : Nat := 5) : List ScoredChunk :=
  let queryEmbedding := generateEmbedding query
  let results := chunks.map fun chunk =>
    ScoredChunk.mk chunk (cosineSimilarity queryEmbedding chunk.embedding)
  let queryWords := splitWs (jsToLower query)
  let boosted := results.map fun result =>
    let textLower := jsToLower result.chunk.text
    { result with
      score := queryWords.foldl
        (fun score word =>
          if containsSub textLower word then score + 1 / 10 else score)
        result.score }
  (boosted.insertionSort fun a b => b.score ≤ a.score).take topK

/-!
## Page classification (imageExtractor.ts, `detectImageOnlyPages`)

The per-page classification: `pageText` is the item strings joined by a
space and trimmed; `hasText` is `pageText.length > 20`; `isImageOnly` is
`!hasText && imageCount > 0`.
-/

structure PageImageResult where
  pageNum : Nat
  hasText : Bool
  isImageOnly : Bool
  imageCount : Nat
deriving Repr, DecidableEq

def classifyPage (strs : List (List Char)) (imageCount : Nat) (pageNum : Nat) :
    PageImageResult :=
  let pageText := trim (joinSep [' '] strs)
  let hasText := decide (20 < pageText.length)
  { pageNum
    hasText
    isImageOnly := !hasText && decide (0 < imageCount)
    imageCount }

/-!
## Table reconstruction (pdfProcessor, `detectTables` / `structureTable`)

Positioned text items carry `transform[4]` (x) and `transform[5]` (y) as
rationals (idealised IEEE doubles).  `Math.round(y / 5) * 5` is computed
exactly on numerator/denominator so the model stays kernel-computable:
`round(x) = ⌊x + 1/2⌋`, hence `round(y/5)·5 = 5·((2·num + 5·den) fdiv (10·den))`.
-/

structure TextItem where
  str : List Char
  x : ℚ
  y : ℚ
deriving Repr, DecidableEq

/-- `Math.round(y / 5) * 5`, computed exactly. -/
def rowKey (y : ℚ) : Int := 5 * (2 * y.num + 5 * (y.den : Int)).fdiv (10 * (y.den : Int))

/-- The table record built by `structureTable` (`id` is a random UUID in the
source and is omitted; no claim mentions it). -/
structure ExtractedTable where
  documentId : List Char
  tableIndex : Nat
  page : Nat
  headers : List (List Char)
  data : List (List (List Char))
  rows : Nat
  columns : Nat
deriving Repr, DecidableEq

/-- Append an item to the bucket of its row key, preserving `Map` insertion
order, creating the bucket at the end if absent. -/
def addToRow : List (Int × List TextItem) → Int → TextItem → List (Int × List TextItem)
  | [], y, item => [(y, [item])]
  | (k, its) :: rest, y, item =>
    if k = y then (k, its ++ [item]) :: rest
    else (k, its) :: addToRow rest y item

/-- Bucket nonempty items by rounded y, as the `rows` map. -/
def groupRows (items : List TextItem) : List (Int × List TextItem) :=
  items.foldl
    (fun rows item =>
      if (trim item.str).isEmpty then rows
      else addToRow rows (rowKey item.y) item)
    []

/-- Rows ordered top-to-bottom (descending y key), each row ordered
left-to-right by x. -/
def sortedRows (items : List TextItem) : List (List TextItem) :=
  ((groupRows items).insertionSort fun a b => b.1 ≤ a.1).map
    fun kv => kv.2.insertionSort fun p q => p.x ≤ q.x

/-- Model of `structureTable`. -/
def structureTable (rows : List (List TextItem)) (pageNum : Nat)
    (tableIndex : Nat) : ExtractedTable :=
  let headers := (rows.headD []).map fun item => trim item.str
  let data := rows.tail.map fun row => row.map fun item => trim item.str
  { documentId := []
    tableIndex
    page := pageNum
    headers
    data
    rows := data.length
    columns := headers.length }

/-- The row-run scan of `detectTables`, with the end-of-page flush. -/
def detectTablesLoop (pageNum : Nat) :
    List (List TextItem) → List ExtractedTable → List (List TextItem) → Int →
      List ExtractedTable
  | [], tables, currentTable, _ =>
    if 3 ≤ currentTable.length then
      tables ++ [structureTable currentTable pageNum tables.length]
    else tables
  | row :: rest, tables, currentTable, prevColCount =>
    let colCount : Int := row.length
    if 2 ≤ colCount ∧ (currentTable.length = 0 ∨ (colCount - prevColCount).natAbs ≤ 2) then
      detectTablesLoop pageNum rest tables (currentTable ++ [row]) colCount
    else
      let tables' :=
        if 3 ≤ currentTable.length then
          tables ++ [structureTable currentTable pageNum tables.length]
        else tables
      detectTablesLoop pageNum rest tables' (if 2 ≤ colCount then [row] else []) colCount

/-- Model of `detectTables(textContent, pageNum)`. -/
def detectTables (items : List TextItem) (pageNum : Nat) : List ExtractedTable :=
  if items.length = 0 then []
  else detectTablesLoop pageNum (sortedRows items) [] [] 0

/-!
## Section building (pdfProcessor, `extractSections` / `extractBulletPoints`)
-/

/-- A page as handed to the section builder. -/
structure ExtractedPage where
  page : Nat
  text : List Char
  isImageOnly : Bool
  imageDescription : List Char
deriving Repr, DecidableEq

/-- The section record the builder produces (`@/types` `Section`). -/
structure Section where
  title : List Char
  content : List Char
  page : Int
  bulletPoints : List (List Char)
deriving Repr, DecidableEq

/-- Decimal digits of a number, for template strings. -/
def natToChars (n : Nat) : List Char := (Nat.repr n).toList

/-- The `[A-Z]` character class (ASCII only, as in JS). -/
def isUpperAZ (c : Char) : Bool := 'A' ≤ c && c ≤ 'Z'

/-!
The heading pattern
`/(?:^|\n)(?:(?:Chapter|Section|Part)\s+\d+[.:]\s*|(?:\d+\.?\s+)?[A-Z][A-Z\s]{3,}(?:\n|$))/gm`
is modelled by a small backtracking-faithful matcher.  Alternative A
(`(?:Chapter|Section|Part)\s+\d+[.:]\s*`) never needs backtracking because
adjacent pieces have disjoint character classes.  In alternative B the
greedy `[A-Z\s]{3,}` backtracks until the next character is a newline
(consumed by `(?:\n|$)`) or the input ends; the optional leading
`(?:\d+\.?\s+)` is tried first and dropped whole on failure.
-/

/-- Alternative A; returns the number of characters consumed. -/
def matchA (l : List Char) : Option Nat :=
  let tryLit : List Char → Option Nat := fun lit =>
    if lit.isPrefixOf l then some lit.length else none
  match tryLit "Chapter".toList <|> tryLit "Section".toList <|> tryLit "Part".toList with
  | none => none
  | some n =>
    let l1 := l.drop n
    let ws1 := l1.takeWhile ws
    if ws1.isEmpty then none
    else
      let l2 := l1.drop ws1.length
      let ds := l2.takeWhile Char.isDigit
      if ds.isEmpty then none
      else
        match l2.drop ds.length with
        | [] => none
        | c :: l4 =>
          if c = '.' ∨ c = ':' then
            some (n + ws1.length + ds.length + 1 + (l4.takeWhile ws).length)
          else none

/-- Largest `k` with `3 ≤ k ≤ run.length` such that the character after the
first `k` run characters is a consumed newline, or the input ends there;
returns the characters consumed from `run ++ tail`. -/
def coreSearchGo (run tail : List Char) : Nat → Option Nat
  | 0 => none
  | k + 1 =>
    if k + 1 < 3 then none
    else
      let hit :=
        if k + 1 = run.length then
          match tail with
          | [] => some (k + 1)
          | c :: _ => if c = '\n' then some (k + 2) else none
        else
          match run.drop (k + 1) with
          | c :: _ => if c = '\n' then some (k + 2) else none
          | [] => none
      match hit with
      | some res => some res
      | none => coreSearchGo run tail k

/-- `[A-Z][A-Z\s]{3,}(?:\n|$)` at the head of `l`; consumed length. -/
def matchCore (l : List Char) : Option Nat :=
  match l with
  | [] => none
  | c :: l1 =>
    if isUpperAZ c then
      let run := l1.takeWhile fun d => isUpperAZ d || ws d
      let tail := l1.drop run.length
      match coreSearchGo run tail run.length with
      | some consumed => some (1 + consumed)
      | none => none
    else none

/-- Alternative B: optional `\d+\.?\s+` prefix, then the uppercase core. -/
def matchB (l : List Char) : Option Nat :=
  let withGroup :=
    let ds := l.takeWhile Char.isDigit
    if ds.isEmpty then none
    else
      let l1 := l.drop ds.length
      match l1 with
      | '.' :: l2 =>
        let ws1 := l2.takeWhile ws
        if ws1.isEmpty then none
        else (matchCore (l2.drop ws1.length)).map (· + ds.length + 1 + ws1.length)
      | _ =>
        let ws1 := l1.takeWhile ws
        if ws1.isEmpty then none
        else (matchCore (l1.drop ws1.length)).map (· + ds.length + ws1.length)
  match withGroup with
  | some n => some n
  | none => matchCore l

/-- The alternation after the `(?:^|\n)` prefix, A before B. -/
def secBody (l : List Char) : Option Nat :=
  match matchA l with
  | some n => some n
  | none => matchB l

/-- One attempt at the current position: the `^` alternative (empty, allowed
at a line start) before the `\n` alternative (consumes the newline). -/
def secAttempt (lineStart : Bool) (l : List Char) : Option Nat :=
  match (if lineStart then secBody l else none) with
  | some n => some n
  | none =>
    match l with
    | '\n' :: l1 => (secBody l1).map (· + 1)
    | _ => none

/-- Global scan for the heading pattern: leftmost matches, restarting after
each match's end; fuel is one unit per character. Yields (index, length). -/
def secMatchAllF : Nat → List Char → Nat → Bool → List (Nat × Nat)
  | 0, _, _, _ => []
  | _ + 1, [], _, _ => []
  | fuel + 1, l@(c :: rest), pos, lineStart =>
    match secAttempt lineStart l with
    | some len =>
      (pos, len) ::
        secMatchAllF fuel (l.drop len) (pos + len) ((l.take len).getLast? == some '\n')
    | none => secMatchAllF fuel rest (pos + 1) (c == '\n')

def secMatches (s : List Char) : List (Nat × Nat) := secMatchAllF s.length s 0 true

/-- `split(/\n{2,}/)`: split on maximal runs of two or more newlines. -/
def splitParaF : Nat → List Char → List Char → List (List Char)
  | 0, s, acc => [acc.reverse ++ s]
  | _ + 1, [], acc => [acc.reverse]
  | fuel + 1, c :: rest, acc =>
    match rest with
    | c' :: rest' =>
      if c = '\n' ∧ c' = '\n' then
        acc.reverse :: splitParaF fuel (rest'.dropWhile fun d => d = '\n') []
      else splitParaF fuel rest (c :: acc)
    | [] => splitParaF fuel rest (c :: acc)

def splitPara (s : List Char) : List (List Char) := splitParaF s.length s []

/-- `split(/[.!?]+/)`: split on maximal runs of sentence terminators. -/
def splitTermsF : Nat → List Char → List Char → List (List Char)
  | 0, s, acc => [acc.reverse ++ s]
  | _ + 1, [], acc => [acc.reverse]
  | fuel + 1, c :: rest, acc =>
    if isTerm c then acc.reverse :: splitTermsF fuel (rest.dropWhile isTerm) []
    else splitTermsF fuel rest (c :: acc)

def splitTerms (s : List Char) : List (List Char) := splitTermsF s.length s []

def importantKeywords : List (List Char) :=
  ["important", "key", "main", "conclusion", "result", "finding", "must",
    "should", "shows", "displays", "illustrates"].map String.toList

/-- Model of `extractBulletPoints`. -/
def extractBulletPoints (text : List Char) : List (List Char) :=
  if text.isEmpty then ["No text content available".toList]
  else
    let sentences := (splitTerms text).filter fun s => 20 < (trim s).length
    let bullets := sentences.enum.foldl
      (fun bullets is =>
        let trimmed := trim is.2
        if bullets.length < 5 then
          if is.1 < 3 ∨ importantKeywords.any (fun kw => containsSub (jsToLower trimmed) kw)
          then bullets ++ [trimmed.take 200]
          else bullets
        else bullets)
      []
    if bullets.length ≠ 0 then bullets
    else
      [if (trim (text.take 200)).isEmpty then "Content available".toList
        else trim (text.take 200)]

/-- `Math.ceil((start / total) * pages) + 1`, computed exactly on naturals
(`total = 0` never reaches this computation in the source). -/
def pageCeil (start total pages : Nat) : Int :=
  ((start * pages + total - 1) / total : Nat) + 1

/-- The paragraph-grouping fallback loop (`for i += chunkSize`). -/
def paraSectionsF (paragraphs : List (List Char)) (chunkSize : Nat)
    (textPageCount : Nat) : Nat → Nat → Nat → List Section
  | 0, _, _ => []
  | fuel + 1, i, count =>
    if i < paragraphs.length then
      let chunk := (paragraphs.drop i).take chunkSize
      let content := joinSep ('\n' :: ['\n']) chunk
      { title := "Section ".toList ++ natToChars (count + 1)
        content
        page := pageCeil i paragraphs.length textPageCount
        bulletPoints := extractBulletPoints content } ::
        paraSectionsF paragraphs chunkSize textPageCount fuel (i + chunkSize) (count + 1)
    else []

/-- The `matches.length === 0 && fullText.trim().length > 50` branch. -/
def paraSections (fullText : List Char) (textPageCount : Nat) : List Section :=
  let paragraphs := (splitPara fullText).filter fun p => 50 < (trim p).length
  let chunkSize :=
    (paragraphs.length + max 1 (paragraphs.length / 5) - 1) / max 1 (paragraphs.length / 5)
  paraSectionsF paragraphs chunkSize textPageCount (paragraphs.length + 1) 0 0

/-- The `matches.length > 0` branch: one section per match, sliced up to the
next match's index. -/
def matchSectionsGo (fullText : List Char) (textPageCount : Nat) :
    List (Nat × Nat) → Nat → List Section
  | [], _ => []
  | (start, _) :: rest, i =>
    let endPos :=
      match rest with
      | (next, _) :: _ => next
      | [] => fullText.length
    let content := trim ((fullText.drop start).take (endPos - start))
    let title :=
      if content.isEmpty then "Section ".toList ++ natToChars (i + 1)
      else trim (content.takeWhile fun c => c ≠ '\n')
    { title := title.take 80
      content
      page := pageCeil start fullText.length textPageCount
      bulletPoints := extractBulletPoints content } ::
      matchSectionsGo fullText textPageCount rest (i + 1)

/-- One iteration of the image-page grouping loop: start a group, extend the
current group when the page is adjacent, otherwise close it. -/
def groupStep (acc : List (List ExtractedPage) × List ExtractedPage)
    (page : ExtractedPage) : List (List ExtractedPage) × List ExtractedPage :=
  match acc.2.getLast? with
  | none => (acc.1, [page])
  | some lastPage =>
    if page.page = lastPage.page + 1 then (acc.1, acc.2 ++ [page])
    else (acc.1 ++ [acc.2], [page])

/-- Group consecutive image-only pages by page adjacency. -/
def groupImagePages (imgs : List ExtractedPage) : List (List ExtractedPage) :=
  let acc := imgs.foldl groupStep ([], [])
  if acc.2.length = 0 then acc.1 else acc.1 ++ [acc.2]

/-- Invariant of the grouping fold: closed groups are nonempty runs of
adjacent pages, the open group is a run, the open group is empty only at the
very start, and consecutive closed groups (and the open group) are separated
by a genuine adjacency break. -/
def GroupInv (gs : List (List ExtractedPage)) (cur : List ExtractedPage) : Prop :=
  (∀ g ∈ gs, g ≠ [] ∧ List.Chain' (fun p q => q.page = p.page + 1) g) ∧
    (cur = [] → gs = []) ∧
    List.Chain' (fun p q => q.page = p.page + 1) cur ∧
    List.Chain'
      (fun g h => (g.getLast?.map fun p => p.page + 1) ≠ h.head?.map fun p => p.page)
      (gs ++ if cur = [] then [] else [cur])

/-- The en dash as it appears (mis-encoded) in the source template string. -/
def sourceDash : List Char := "â€“".toList

/-- The section synthesised for one group of image-only pages. -/
def mkImageSection (group : List ExtractedPage) : Section :=
  let startPage := (group.head?.map fun p => p.page).getD 0
  let endPage := (group.getLast?.map fun p => p.page).getD 0
  let content := joinSep ('\n' :: ['\n']) (group.map fun p => p.text)
  let pageRange :=
    if startPage = endPage then "Page ".toList ++ natToChars startPage
    else "Pages ".toList ++ natToChars startPage ++ sourceDash ++ natToChars endPage
  { title := "Image Content (".toList ++ pageRange ++ [')']
    content
    page := (startPage : Int)
    bulletPoints :=
      ((group.filter fun p => !p.imageDescription.isEmpty).map
        fun p => p.imageDescription).take 5 }

/-- The `sections.length === 0` fallback section. -/
def fallbackSection (pages : List ExtractedPage) : Section :=
  let allText := joinSep ('\n' :: ['\n']) (pages.map fun p => p.text)
  { title :=
      if pages.any (fun p => p.isImageOnly) then "Image Content".toList
      else "Section 1".toList
    content :=
      if allText.isEmpty then "No content extracted from this document.".toList
      else allText
    page := 1
    bulletPoints := extractBulletPoints allText }

/-- Model of `extractSections(pages)`. -/
def extractSections (pages : List ExtractedPage) : List Section :=
  let imageOnlyPages := pages.filter fun p => p.isImageOnly
  let textPages := pages.filter fun p => !p.isImageOnly
  let fullText := joinSep ('\n' :: ['\n']) (textPages.map fun p => p.text)
  let ms := secMatches fullText
  let textSections :=
    if ms.length = 0 ∧ 50 < (trim fullText).length then
      paraSections fullText textPages.length
    else if 0 < ms.length then
      matchSectionsGo fullText textPages.length ms 0
    else []
  let imageSections := (groupImagePages imageOnlyPages).map mkImageSection
  let base := textSections ++ imageSections
  let withFallback := if base.length = 0 then [fallbackSection pages] else base
  withFallback.insertionSort fun a b => a.page ≤ b.page

/-!
## Chat hook (useChat.ts, `sendMessage`)

`sendMessage` is modelled as a pure transition: the external Q&A call's
outcome is the `aiResult` parameter, timestamps are the `now` parameter, and
the resulting hook state (final message list, persisted history, surfaced
error) is returned.  `undefined` and `''` are both falsy in the source's
guard, so missing ids/keys are modelled as empty strings.
-/

structure Citation where
  chunkId : List Char
  page : Nat
  text : List Char

structure ChatMessage where
  role : List Char
  content : List Char
  timestamp : Nat
  citations : List Citation := []

structure ChatHistory where
  id : List Char
  documentId : List Char
  provider : List Char
  timestamp : Nat
  messages : List ChatMessage

structure SendOutcome where
  ok : Bool
  errorMsg : Option (List Char)
  messages : List ChatMessage
  saved : Option ChatHistory

noncomputable def sendMessage (documentId apiKey provider content : List Char)
    (messages : List ChatMessage) (chunks : List Chunk) (now : Nat)
    (aiResult : Except (List Char) (List Char)) : SendOutcome :=
  if documentId.isEmpty ∨ apiKey.isEmpty ∨ (trim content).isEmpty then
    { ok := false
      errorMsg := some "Missing required parameters".toList
      messages := messages
      saved := none }
  else
    let userMessage : ChatMessage :=
      { role := "user".toList, content := trim content, timestamp := now }
    let newMessages := messages ++ [userMessage]
    let relevantChunks := searchChunks content chunks 5
    match aiResult with
    | .error e =>
      { ok := false, errorMsg := some e, messages := messages, saved := none }
    | .ok response =>
      let assistantMessage : ChatMessage :=
        { role := "assistant".toList
          content := response
          timestamp := now
          citations := relevantChunks.map fun c =>
            ⟨c.chunk.id, c.chunk.page, c.chunk.text.take 100 ++ "...".toList⟩ }
      let finalMessages := newMessages ++ [assistantMessage]
      { ok := true
        errorMsg := none
        messages := finalMessages
        saved := some
          { id := documentId ++ ['_'] ++ provider
            documentId
            provider
            timestamp := now
            messages := finalMessages } }

/-!
## Lemmas
-/

theorem tryMatch_rest_length {s m r : List Char} (h : tryMatch s = some (m, r)) :
    r.length < s.length := by
  simp only [tryMatch] at h
  split at h
  · simp at h
  · split at h
    · simp at h
    · rename_i h1 h2
      have hrun1 : ¬ (s.takeWhile fun c => !isTerm c) = [] := by
        simpa [List.isEmpty_iff] using h1
      have hlt : (s.dropWhile fun c => !isTerm c).length < s.length := by
        have hlen := congrArg List.length
          (List.takeWhile_append_dropWhile (p := fun c => !isTerm c) (l := s))
        simp only [List.length_append] at hlen
        have : (s.takeWhile fun c => !isTerm c).length ≠ 0 := by
          simpa [List.length_eq_zero] using hrun1
        omega
      have hle2 : ((s.dropWhile fun c => !isTerm c).dropWhile isTerm).length
          ≤ (s.dropWhile fun c => !isTerm c).length :=
        (List.dropWhile_suffix isTerm).sublist.length_le
      split at h
      · rename_i heq
        simp only [Option.some.injEq, Prod.mk.injEq] at h
        obtain ⟨-, hr⟩ := h
        subst hr
        simpa using Nat.lt_of_le_of_lt (Nat.zero_le _) hlt
      · rename_i c cs heq
        split at h
        · simp only [Option.some.injEq, Prod.mk.injEq] at h
          obtain ⟨-, hr⟩ := h
          subst hr
          rw [← heq] at *
          exact Nat.lt_of_le_of_lt hle2 hlt
        · simp at h

theorem tryMatch_nil : tryMatch [] = none := rfl

theorem matchAllF_congr : ∀ (f₁ f₂ : Nat) (s : List Char),
    s.length ≤ f₁ → s.length ≤ f₂ → matchAllF f₁ s = matchAllF f₂ s := by
  intro f₁
  induction f₁ with
  | zero =>
    intro f₂ s h₁ _
    have : s = [] := List.length_eq_zero.mp (Nat.le_zero.mp h₁)
    subst this
    cases f₂ <;> rfl
  | succ f ih =>
    intro f₂ s h₁ h₂
    cases s with
    | nil => cases f₂ <;> rfl
    | cons c rest =>
      cases f₂ with
      | zero => simp at h₂
      | succ g =>
        simp only [matchAllF]
        cases hm : tryMatch (c :: rest) with
        | some mr =>
          obtain ⟨m, r⟩ := mr
          have hr := tryMatch_rest_length hm
          simp only [List.length_cons] at h₁ h₂ hr
          exact congrArg (m :: ·) (ih g r (by omega) (by omega))
        | none =>
          simp only [List.length_cons] at h₁ h₂
          exact ih g rest (by omega) (by omega)

theorem matchAll_nil : matchAll [] = [] := rfl

theorem matchAll_of_some {s m r : List Char} (h : tryMatch s = some (m, r)) :
    matchAll s = m :: matchAll r := by
  cases s with
  | nil => rw [tryMatch_nil] at h; cases h
  | cons c rest =>
    have hr := tryMatch_rest_length h
    simp only [List.length_cons] at hr
    show matchAllF (c :: rest).length (c :: rest) = _
    simp only [List.length_cons, matchAllF, h]
    exact congrArg (m :: ·) (matchAllF_congr rest.length r.length r (by omega) le_rfl)

theorem matchAll_of_none {c : Char} {rest : List Char}
    (h : tryMatch (c :: rest) = none) : matchAll (c :: rest) = matchAll rest := by
  show matchAllF (c :: rest).length (c :: rest) = _
  simp only [List.length_cons, matchAllF, h]
  rfl

/-! ### Elementary facts about `trim` -/

theorem dropWhile_append_of_ne_nil {p : Char → Bool} {a : List Char}
    (b : List Char) (h : a.dropWhile p ≠ []) :
    (a ++ b).dropWhile p = a.dropWhile p ++ b := by
  rw [List.dropWhile_append]
  simp [List.isEmpty_iff, h]

theorem dropWhile_append_of_nil {p : Char → Bool} {a : List Char}
    (b : List Char) (h : a.dropWhile p = []) :
    (a ++ b).dropWhile p = b.dropWhile p := by
  rw [List.dropWhile_append]
  simp [List.isEmpty_iff, h]

theorem trimR_eq_self {l : List Char} {c : Char}
    (hl : l.getLast? = some c) (hc : ws c = false) : trimR l = l := by
  unfold trimR
  rw [← List.head?_reverse] at hl
  cases hrev : l.reverse with
  | nil => simp [hrev] at hl
  | cons d t =>
    rw [hrev] at hl
    simp only [List.head?_cons, Option.some.injEq] at hl
    subst hl
    rw [List.dropWhile_cons_of_neg (by simp [hc]), ← hrev, List.reverse_reverse]

theorem trimL_ne_nil {l : List Char} {c : Char}
    (hmem : c ∈ l) (hc : ws c = false) : trimL l ≠ [] := by
  intro hnil
  have := List.dropWhile_eq_nil_iff.mp hnil c hmem
  simp [hc] at this

theorem getLast?_trimL {l : List Char} (h : trimL l ≠ []) :
    (trimL l).getLast? = l.getLast? := by
  obtain ⟨t, ht⟩ := List.dropWhile_suffix (l := l) (p := ws)
  conv_rhs => rw [← ht]
  exact (List.getLast?_append_of_ne_nil t h).symm

theorem getLast?_mem {l : List Char} {c : Char} (h : l.getLast? = some c) : c ∈ l :=
  List.mem_of_mem_getLast? h

theorem trim_eq_trimL {l : List Char} {c : Char}
    (hl : l.getLast? = some c) (hc : ws c = false) : trim l = trimL l := by
  unfold trim
  have hne : trimL l ≠ [] := trimL_ne_nil (getLast?_mem hl) hc
  exact trimR_eq_self (c := c) ((getLast?_trimL hne).trans hl) hc

theorem getLast?_trim {l : List Char} {c : Char}
    (hl : l.getLast? = some c) (hc : ws c = false) :
    (trim l).getLast? = some c := by
  rw [trim_eq_trimL hl hc]
  exact (getLast?_trimL (trimL_ne_nil (getLast?_mem hl) hc)).trans hl

theorem length_trimL_le (l : List Char) : (trimL l).length ≤ l.length :=
  (List.dropWhile_sublist _).length_le

theorem length_trimR_le (l : List Char) : (trimR l).length ≤ l.length := by
  unfold trimR
  calc (l.reverse.dropWhile ws).reverse.length
      = (l.reverse.dropWhile ws).length := List.length_reverse _
    _ ≤ l.reverse.length := (List.dropWhile_sublist _).length_le
    _ = l.length := List.length_reverse _

theorem length_trim_le (l : List Char) : (trim l).length ≤ l.length :=
  (length_trimR_le _).trans (length_trimL_le _)

/-- `trimR` distributes over an append whose left part ends in non-whitespace. -/
theorem trimR_append_left {b : List Char} {c : Char} (r : List Char)
    (hb : b.getLast? = some c) (hc : ws c = false) :
    trimR (b ++ r) = b ++ trimR r := by
  unfold trimR
  rw [List.reverse_append]
  by_cases hnil : r.reverse.dropWhile ws = []
  · rw [dropWhile_append_of_nil _ hnil, hnil, List.reverse_nil, List.append_nil]
    rw [← List.head?_reverse] at hb
    cases hrev : b.reverse with
    | nil => simp [hrev] at hb
    | cons d t =>
      rw [hrev] at hb
      simp only [List.head?_cons, Option.some.injEq] at hb
      subst hb
      rw [List.dropWhile_cons_of_neg (by simp [hc]), ← hrev, List.reverse_reverse]
  · rw [dropWhile_append_of_ne_nil _ hnil, List.reverse_append, List.reverse_reverse]

/-- `trimR` distributes over an append whose right part contains non-whitespace. -/
theorem trimR_append_right {b : List Char} (a : List Char) {c : Char}
    (hmem : c ∈ b) (hc : ws c = false) :
    trimR (a ++ b) = a ++ trimR b := by
  unfold trimR
  rw [List.reverse_append]
  have hnil : b.reverse.dropWhile ws ≠ [] := by
    intro hnil
    have := List.dropWhile_eq_nil_iff.mp hnil c (by simpa using hmem)
    simp [hc] at this
  rw [dropWhile_append_of_ne_nil _ hnil, List.reverse_append, List.reverse_reverse]

/-- Over an append whose left part ends in non-whitespace, `trim` splits into
a left trim of the left part and a right trim of the right part. -/
theorem trim_append_decomp {m : List Char} {c : Char} (r : List Char)
    (hm : m.getLast? = some c) (hc : ws c = false) :
    trim (m ++ r) = trimL m ++ trimR r := by
  unfold trim
  have hne : trimL m ≠ [] := trimL_ne_nil (getLast?_mem hm) hc
  have h1 : trimL (m ++ r) = trimL m ++ r :=
    dropWhile_append_of_ne_nil (p := ws) r hne
  rw [h1]
  exact trimR_append_left r ((getLast?_trimL hne).trans hm) hc

/-- When a list has any non-whitespace, `trimR` keeps its whitespace prefix. -/
theorem trimR_eq_takeWhile_append_trim {r : List Char} (h : trimL r ≠ []) :
    trimR r = r.takeWhile ws ++ trim r := by
  conv_lhs => rw [← List.takeWhile_append_dropWhile (p := ws) (l := r)]
  have hmem : ∃ c ∈ trimL r, ws c = false := by
    cases hL : trimL r with
    | nil => exact absurd hL h
    | cons d t =>
      refine ⟨d, by simp [hL], ?_⟩
      have := List.head?_dropWhile_not ws r
      rw [show List.dropWhile ws r = trimL r from rfl, hL] at this
      simpa using this
  obtain ⟨c, hcm, hcw⟩ := hmem
  exact trimR_append_right _ hcm hcw

theorem length_trim_lt_trimR {r : List Char} {w : Char} {t : List Char}
    (hr : r = w :: t) (hw : ws w = true) (h : trimL r ≠ []) :
    (trim r).length + 1 ≤ (trimR r).length := by
  rw [trimR_eq_takeWhile_append_trim h, List.length_append]
  have : 1 ≤ (r.takeWhile ws).length := by
    subst hr
    rw [List.takeWhile_cons_of_pos hw]
    simp
  omega

/-! ### Structure of sentence matches -/

theorem isTerm_not_ws {c : Char} (h : isTerm c = true) : ws c = false := by
  unfold isTerm at h
  rcases Bool.or_eq_true_iff.mp h with h' | h'
  · rcases Bool.or_eq_true_iff.mp h' with h'' | h''
    · rw [beq_iff_eq.mp h'']; rfl
    · rw [beq_iff_eq.mp h'']; rfl
  · rw [beq_iff_eq.mp h']; rfl

theorem ws_not_isTerm {c : Char} (h : ws c = true) : isTerm c = false := by
  cases hi : isTerm c
  · rfl
  · rw [isTerm_not_ws hi] at h; cases h

/-- A successful `tryMatch` decomposes the input, the match ends in a
terminator, and the remainder is empty or starts with whitespace. -/
theorem tryMatch_eq {s m r : List Char} (h : tryMatch s = some (m, r)) :
    s = m ++ r ∧ (∃ c, m.getLast? = some c ∧ isTerm c = true) ∧
      (r = [] ∨ ∃ w t, r = w :: t ∧ ws w = true) := by
  simp only [tryMatch] at h
  split at h
  · simp at h
  · split at h
    · simp at h
    · rename_i h1 h2
      have hrest1 : s.dropWhile (fun c => !isTerm c) =
          (s.dropWhile fun c => !isTerm c).takeWhile isTerm ++
            (s.dropWhile fun c => !isTerm c).dropWhile isTerm :=
        (List.takeWhile_append_dropWhile _ _).symm
      have hs2 : s = (s.takeWhile fun c => !isTerm c) ++
          (s.dropWhile fun c => !isTerm c) :=
        (List.takeWhile_append_dropWhile _ _).symm
      have hrun2 : ¬ ((s.dropWhile fun c => !isTerm c).takeWhile isTerm) = [] := by
        simpa [List.isEmpty_iff] using h2
      have hlast : ∃ c, ((s.takeWhile fun c => !isTerm c) ++
          (s.dropWhile fun c => !isTerm c).takeWhile isTerm).getLast? = some c ∧
          isTerm c = true := by
        cases hg : ((s.dropWhile fun c => !isTerm c).takeWhile isTerm).getLast? with
        | none => exact absurd (List.getLast?_eq_none_iff.mp hg) hrun2
        | some c =>
          refine ⟨c, ?_, ?_⟩
          · rw [List.getLast?_append_of_ne_nil _ hrun2]; exact hg
          · exact List.mem_takeWhile_imp (getLast?_mem hg)
      split at h
      · rename_i heq
        simp only [Option.some.injEq, Prod.mk.injEq] at h
        obtain ⟨hm, hr⟩ := h
        subst hm; subst hr
        refine ⟨?_, hlast, Or.inl rfl⟩
        rw [List.append_assoc, ← heq, ← hrest1, ← hs2]
      · rename_i c cs heq
        split at h
        · rename_i hws
          simp only [Option.some.injEq, Prod.mk.injEq] at h
          obtain ⟨hm, hr⟩ := h
          subst hm; subst hr
          refine ⟨?_, hlast, Or.inr ⟨c, cs, heq, hws⟩⟩
          rw [List.append_assoc, ← hrest1, ← hs2]
        · simp at h

theorem tryMatch_all_ws {s : List Char} (h : ∀ c ∈ s, ws c = true) :
    tryMatch s = none := by
  have hdrop : s.dropWhile (fun c => !isTerm c) = [] :=
    List.dropWhile_eq_nil_iff.mpr fun c hc => by simp [ws_not_isTerm (h c hc)]
  simp only [tryMatch, hdrop]
  cases hE : (s.takeWhile fun c => !isTerm c).isEmpty
  · simp [hE]
  · simp [hE]

theorem matchAllF_all_ws : ∀ (fuel : Nat) {s : List Char},
    (∀ c ∈ s, ws c = true) → matchAllF fuel s = [] := by
  intro fuel
  induction fuel with
  | zero => intro s _; rfl
  | succ f ih =>
    intro s h
    cases s with
    | nil => rfl
    | cons c rest =>
      simp only [matchAllF, tryMatch_all_ws h]
      exact ih fun d hd => h d (List.mem_cons_of_mem c hd)

theorem matchAll_all_ws {s : List Char} (h : ∀ c ∈ s, ws c = true) :
    matchAll s = [] := matchAllF_all_ws s.length h

theorem trimL_ne_nil_iff {l : List Char} :
    trimL l ≠ [] ↔ ∃ c ∈ l, ws c = false := by
  constructor
  · intro h
    by_contra hno
    push_neg at hno
    exact h (List.dropWhile_eq_nil_iff.mpr fun c hc => by
      have := hno c hc
      cases hw : ws c
      · exact absurd hw this
      · rfl)
  · rintro ⟨c, hc, hw⟩ h
    have := List.dropWhile_eq_nil_iff.mp h c hc
    rw [hw] at this
    cases this

/-- Every match produced by the global sentence scan ends in a terminator. -/
theorem matchAllF_ends_term : ∀ (fuel : Nat) {s : List Char}, s.length ≤ fuel →
    ∀ m ∈ matchAllF fuel s, ∃ c, m.getLast? = some c ∧ isTerm c = true := by
  intro fuel
  induction fuel with
  | zero => intro s _ m hm; cases hm
  | succ f ih =>
    intro s hlen m hm
    cases s with
    | nil => cases hm
    | cons c rest =>
      simp only [matchAllF] at hm
      cases htm : tryMatch (c :: rest) with
      | some pr =>
        obtain ⟨m0, r⟩ := pr
        rw [htm] at hm
        rcases List.mem_cons.mp hm with rfl | hm'
        · exact (tryMatch_eq htm).2.1
        · have hr := tryMatch_rest_length htm
          simp only [List.length_cons] at hr hlen
          exact ih (by omega) m hm'
      | none =>
        rw [htm] at hm
        simp only [List.length_cons] at hlen
        exact ih (by omega) m hm

theorem matchAll_ends_term {s : List Char} :
    ∀ m ∈ matchAll s, ∃ c, m.getLast? = some c ∧ isTerm c = true :=
  matchAllF_ends_term s.length le_rfl

/-! ### The weight bound: trimmed sentences joined by single spaces never
exceed the trimmed input -/

theorem length_trim_le_trimR (l : List Char) :
    (trim l).length ≤ (trimR l).length := by
  by_cases h : trimL l = []
  · unfold trim
    rw [h]
    simp [trimR]
  · rw [trimR_eq_takeWhile_append_trim h, List.length_append]
    omega

theorem length_trim_cons (c : Char) (rest : List Char) :
    (trim rest).length ≤ (trim (c :: rest)).length := by
  cases hw : ws c
  · -- c is not whitespace: trimL (c :: rest) = c :: rest
    have hL : trimL (c :: rest) = c :: rest := List.dropWhile_cons_of_neg (by simp [hw])
    have htrim : trim (c :: rest) = trimR (c :: rest) := by unfold trim; rw [hL]
    by_cases hrest : trimL rest = []
    · have : trim rest = [] := by unfold trim; rw [hrest]; rfl
      simp [this]
    · obtain ⟨d, hd, hdw⟩ := trimL_ne_nil_iff.mp hrest
      have : trimR (c :: rest) = c :: trimR rest := by
        have := trimR_append_right (b := rest) [c] hd hdw
        simpa using this
      rw [htrim, this]
      simp only [List.length_cons]
      have := length_trim_le_trimR rest
      omega
  · -- c is whitespace: trim (c :: rest) = trim rest
    have : trim (c :: rest) = trim rest := by
      unfold trim trimL
      rw [List.dropWhile_cons_of_pos (by simp [hw])]
    rw [this]

theorem matchAllF_nil (fuel : Nat) : matchAllF fuel [] = [] := by
  cases fuel <;> rfl

theorem matchAllF_weight_bound : ∀ (fuel : Nat) {s : List Char}, s.length ≤ fuel →
    matchWeight (matchAllF fuel s) ≤ (trim s).length + 1 := by
  intro fuel
  induction fuel with
  | zero =>
    intro s _
    rw [show matchAllF 0 s = [] from rfl]
    simp [matchWeight]
  | succ f ih =>
    intro s hlen
    cases s with
    | nil =>
      rw [matchAllF_nil]
      simp [matchWeight]
    | cons c rest =>
      simp only [matchAllF]
      cases htm : tryMatch (c :: rest) with
      | none =>
        simp only [List.length_cons] at hlen
        calc matchWeight (matchAllF f rest) ≤ (trim rest).length + 1 := ih (by omega)
          _ ≤ (trim (c :: rest)).length + 1 := by
              have := length_trim_cons c rest
              omega
      | some pr =>
        obtain ⟨m, r⟩ := pr
        obtain ⟨hs, ⟨e, he, het⟩, hr⟩ := tryMatch_eq htm
        have hew : ws e = false := isTerm_not_ws het
        have hrlen := tryMatch_rest_length htm
        simp only [List.length_cons] at hrlen hlen
        have hsplit : trim (c :: rest) = trimL m ++ trimR r := by
          rw [hs]
          exact trim_append_decomp r he hew
        have hmlen : (trim m).length = (trimL m).length := by
          rw [trim_eq_trimL he hew]
        have hwm : matchWeight (m :: matchAllF f r) =
            (trim m).length + 1 + matchWeight (matchAllF f r) := by
          simp only [matchWeight, List.map_cons, List.sum_cons]
        rw [hwm, hsplit, List.length_append]
        by_cases hmr : matchAllF f r = []
        · rw [hmr]
          simp only [matchWeight, List.map_nil, List.sum_nil]
          omega
        · -- r starts with whitespace and contains a non-whitespace character
          rcases hr with rfl | ⟨w, t, rfl, hww⟩
          · exact absurd (matchAllF_nil f) hmr
          · have hnonws : trimL (w :: t) ≠ [] := by
              rw [trimL_ne_nil_iff]
              by_contra hno
              push_neg at hno
              exact hmr (matchAllF_all_ws f fun d hd => by
                have := hno d hd
                cases hw' : ws d
                · exact absurd hw' this
                · rfl)
            have hstep : (trim (w :: t)).length + 1 ≤ (trimR (w :: t)).length :=
              length_trim_lt_trimR rfl hww hnonws
            have hih : matchWeight (matchAllF f (w :: t)) ≤ (trim (w :: t)).length + 1 :=
              ih (by omega)
            omega

theorem matchAll_weight_bound (s : List Char) :
    matchWeight (matchAll s) ≤ (trim s).length + 1 :=
  matchAllF_weight_bound s.length le_rfl

/-! ### `trim` is idempotent -/

theorem trimR_prefix (l : List Char) : trimR l <+: l := by
  have h := List.dropWhile_suffix (l := l.reverse) (p := ws)
  have : (trimR l).reverse <:+ l.reverse := by
    unfold trimR
    rw [List.reverse_reverse]
    exact h
  exact List.reverse_suffix.mp this

theorem head?_trim_not_ws {l : List Char} {c : Char}
    (h : (trim l).head? = some c) : ws c = false := by
  have hne : trim l ≠ [] := by intro hn; rw [hn] at h; cases h
  obtain ⟨t, ht⟩ := trimR_prefix (trimL l)
  have hhead : (trimL l).head? = some c := by
    rw [← ht]
    show (trim l ++ t).head? = some c
    rw [List.head?_append_of_ne_nil _ hne]
    exact h
  have hdw := List.head?_dropWhile_not ws l
  rw [show List.dropWhile ws l = trimL l from rfl, hhead] at hdw
  simpa using hdw

theorem getLast?_trimR_not_ws {l : List Char} {c : Char}
    (h : (trimR l).getLast? = some c) : ws c = false := by
  unfold trimR at h
  rw [List.getLast?_reverse] at h
  have := List.head?_dropWhile_not ws l.reverse
  rw [h] at this
  simpa using this

theorem getLast?_trim_not_ws {l : List Char} {c : Char}
    (h : (trim l).getLast? = some c) : ws c = false :=
  getLast?_trimR_not_ws h

theorem trim_eq_self {l : List Char}
    (hh : ∀ c, l.head? = some c → ws c = false)
    (hl : ∀ c, l.getLast? = some c → ws c = false) : trim l = l := by
  cases l with
  | nil => rfl
  | cons c t =>
    have hL : trimL (c :: t) = c :: t :=
      List.dropWhile_cons_of_neg (by simp [hh c rfl])
    show trimR (trimL (c :: t)) = c :: t
    rw [hL]
    cases hg : (c :: t).getLast? with
    | none => simp at hg
    | some d => exact trimR_eq_self hg (hl d hg)

theorem trim_idem (l : List Char) : trim (trim l) = trim l :=
  trim_eq_self (fun _ h => head?_trim_not_ws h) (fun _ h => getLast?_trim_not_ws h)

/-! ### Chunker fold invariants -/

/-- Exhaustive description of one chunker step: skip an empty trimmed
sentence, emit the buffer (only possible when it exceeds 100 characters),
or append the sentence to the buffer. -/
theorem chunkStep_eq (t m : Nat) (st : ChunkState) (s : List Char) :
    chunkStep t m st s = st ∧ trim s = [] ∨
      trim s ≠ [] ∧
        (chunkStep t m st s =
            { chunks := st.chunks ++ [⟨trim st.currentChunk, st.startOffset,
                st.startOffset + st.currentChunk.length, st.chunkIndex⟩]
              currentChunk := trim s
              startOffset := st.startOffset + st.currentChunk.length
              chunkIndex := st.chunkIndex + 1 } ∧
            100 < st.currentChunk.length ∨
          chunkStep t m st s =
            { st with currentChunk := st.currentChunk ++
                (if st.currentChunk.isEmpty then [] else [' ']) ++ trim s }) := by
  simp only [chunkStep]
  by_cases hE : (trim s).isEmpty
  · rw [if_pos hE]
    exact Or.inl ⟨rfl, List.isEmpty_iff.mp hE⟩
  · rw [if_neg hE]
    refine Or.inr ⟨by simpa [List.isEmpty_iff] using hE, ?_⟩
    by_cases hc1 : m < (st.currentChunk ++
        (if st.currentChunk.isEmpty then [] else [' ']) ++ trim s).length ∧
        100 < st.currentChunk.length
    · rw [if_pos hc1]
      exact Or.inl ⟨rfl, hc1.2⟩
    · rw [if_neg hc1]
      by_cases hc2 : t ≤ (st.currentChunk ++
          (if st.currentChunk.isEmpty then [] else [' ']) ++ trim s).length ∧
          300 < st.currentChunk.length
      · rw [if_pos hc2]
        exact Or.inl ⟨rfl, by omega⟩
      · rw [if_neg hc2]
        exact Or.inr rfl

/-- Invariant for the terminator claim: every emitted chunk and any nonempty
buffer end in a sentence terminator. -/
theorem chunkStep_ends_term {t m : Nat} {st : ChunkState} {s : List Char}
    (hs : ∃ c, (trim s).getLast? = some c ∧ isTerm c = true)
    (h1 : ∀ ch ∈ st.chunks, ∃ c, ch.text.getLast? = some c ∧ isTerm c = true)
    (h2 : st.currentChunk = [] ∨
      ∃ c, st.currentChunk.getLast? = some c ∧ isTerm c = true) :
    (∀ ch ∈ (chunkStep t m st s).chunks,
        ∃ c, ch.text.getLast? = some c ∧ isTerm c = true) ∧
      ((chunkStep t m st s).currentChunk = [] ∨
        ∃ c, (chunkStep t m st s).currentChunk.getLast? = some c ∧ isTerm c = true) := by
  obtain ⟨e, he, het⟩ := hs
  have hts : trim s ≠ [] := by intro hnil; rw [hnil] at he; cases he
  rcases chunkStep_eq t m st s with ⟨heq, -⟩ | ⟨-, ⟨heq, hlen⟩ | heq⟩
  · rw [heq]; exact ⟨h1, h2⟩
  · rw [heq]
    constructor
    · intro ch hch
      rcases List.mem_append.mp hch with hch' | hch'
      · exact h1 ch hch'
      · rw [List.mem_singleton.mp hch']
        rcases h2 with hnil | ⟨c, hc, hct⟩
        · rw [hnil] at hlen; cases hlen
        · exact ⟨c, getLast?_trim hc (isTerm_not_ws hct), hct⟩
    · exact Or.inr ⟨e, he, het⟩
  · rw [heq]
    refine ⟨h1, Or.inr ⟨e, ?_, het⟩⟩
    show ((st.currentChunk ++ _) ++ trim s).getLast? = some e
    rw [List.getLast?_append_of_ne_nil _ hts]
    exact he

theorem chunkFold_ends_term {t m : Nat} :
    ∀ (ss : List (List Char)) (st : ChunkState),
      (∀ s ∈ ss, ∃ c, (trim s).getLast? = some c ∧ isTerm c = true) →
      (∀ ch ∈ st.chunks, ∃ c, ch.text.getLast? = some c ∧ isTerm c = true) →
      (st.currentChunk = [] ∨
        ∃ c, st.currentChunk.getLast? = some c ∧ isTerm c = true) →
      (∀ ch ∈ (ss.foldl (chunkStep t m) st).chunks,
          ∃ c, ch.text.getLast? = some c ∧ isTerm c = true) ∧
        ((ss.foldl (chunkStep t m) st).currentChunk = [] ∨
          ∃ c, (ss.foldl (chunkStep t m) st).currentChunk.getLast? = some c ∧
            isTerm c = true) := by
  intro ss
  induction ss with
  | nil => intro st _ h1 h2; exact ⟨h1, h2⟩
  | cons s rest ih =>
    intro st hss h1 h2
    have hstep := @chunkStep_ends_term t m st s
      (hss s (List.mem_cons_self s rest)) h1 h2
    exact ih _ (fun x hx => hss x (List.mem_cons_of_mem s hx)) hstep.1 hstep.2

/-- Invariant for the length claim: the buffer is trim-stable and every
emitted chunk is longer than 50 characters. -/
theorem chunkStep_len {t m : Nat} {st : ChunkState} {s : List Char}
    (h1 : ∀ ch ∈ st.chunks, 50 < ch.text.length)
    (h2 : trim st.currentChunk = st.currentChunk) :
    (∀ ch ∈ (chunkStep t m st s).chunks, 50 < ch.text.length) ∧
      trim (chunkStep t m st s).currentChunk = (chunkStep t m st s).currentChunk := by
  rcases chunkStep_eq t m st s with ⟨heq, -⟩ | ⟨hts, ⟨heq, hlen⟩ | heq⟩
  · rw [heq]; exact ⟨h1, h2⟩
  · rw [heq]
    constructor
    · intro ch hch
      rcases List.mem_append.mp hch with hch' | hch'
      · exact h1 ch hch'
      · rw [List.mem_singleton.mp hch']
        show 50 < (trim st.currentChunk).length
        rw [h2]
        omega
    · exact trim_idem s
  · rw [heq]
    refine ⟨h1, ?_⟩
    show trim ((st.currentChunk ++ _) ++ trim s) = (st.currentChunk ++ _) ++ trim s
    cases hc : st.currentChunk with
    | nil => simpa using trim_idem s
    | cons d cs =>
      rw [← hc]
      apply trim_eq_self
      · intro c' hc'
        rw [List.head?_append_of_ne_nil _ (by rw [hc]; simp),
          List.head?_append_of_ne_nil _ (by rw [hc]; simp)] at hc'
        exact head?_trim_not_ws (h2.symm ▸ hc')
      · intro c' hc'
        rw [List.getLast?_append_of_ne_nil _ hts] at hc'
        exact getLast?_trim_not_ws (l := s) ((trim_idem s).symm ▸ hc')

theorem chunkFold_len {t m : Nat} :
    ∀ (ss : List (List Char)) (st : ChunkState),
      (∀ ch ∈ st.chunks, 50 < ch.text.length) →
      trim st.currentChunk = st.currentChunk →
      (∀ ch ∈ (ss.foldl (chunkStep t m) st).chunks, 50 < ch.text.length) ∧
        trim (ss.foldl (chunkStep t m) st).currentChunk =
          (ss.foldl (chunkStep t m) st).currentChunk := by
  intro ss
  induction ss with
  | nil => intro st h1 h2; exact ⟨h1, h2⟩
  | cons s rest ih =>
    intro st h1 h2
    have hstep := @chunkStep_len t m st s h1 h2
    exact ih _ hstep.1 hstep.2

/-- Invariant for the small-input claim: when all remaining sentence weight
fits under `L + 1 ≤ 101`, no chunk is ever emitted and the buffer stays
below `L`. -/
theorem chunkFold_small {t m L : Nat} (hL : L ≤ 100) :
    ∀ (ss : List (List Char)) (st : ChunkState),
      st.chunks = [] →
      bufWeight st.currentChunk + matchWeight ss ≤ L + 1 →
      (ss.foldl (chunkStep t m) st).chunks = [] ∧
        (ss.foldl (chunkStep t m) st).currentChunk.length ≤ L := by
  intro ss
  induction ss with
  | nil =>
    intro st h1 h2
    refine ⟨h1, ?_⟩
    simp only [List.foldl_nil]
    simp only [matchWeight, List.map_nil, List.sum_nil] at h2
    unfold bufWeight at h2
    split at h2
    · rename_i h; rw [h]; simp
    · omega
  | cons s rest ih =>
    intro st h1 h2
    have hw : matchWeight (s :: rest) = ((trim s).length + 1) + matchWeight rest := by
      simp [matchWeight]
    rw [hw] at h2
    simp only [List.foldl_cons]
    have hble : st.currentChunk.length ≤ bufWeight st.currentChunk := by
      unfold bufWeight
      split
      · rename_i h; rw [h]; simp
      · omega
    rcases chunkStep_eq t m st s with ⟨heq, -⟩ | ⟨hts, ⟨-, hlen⟩ | heq⟩
    · rw [heq]
      exact ih st h1 (by omega)
    · -- emission is impossible: the buffer is at most L ≤ 100 long
      exact absurd hlen (by omega)
    · rw [heq]
      refine ih _ h1 ?_
      have hpotlen : (st.currentChunk ++
          (if st.currentChunk.isEmpty then [] else [' ']) ++ trim s).length ≤
            bufWeight st.currentChunk + (trim s).length := by
        unfold bufWeight
        cases hc : st.currentChunk with
        | nil => simp
        | cons d cs => simp [hc]; omega
      have hpotne : st.currentChunk ++
          (if st.currentChunk.isEmpty then [] else [' ']) ++ trim s ≠ [] := by
        intro hmt
        rcases List.append_eq_nil.mp hmt with ⟨-, h'⟩
        exact hts h'
      show bufWeight (st.currentChunk ++ _ ++ trim s) + matchWeight rest ≤ L + 1
      unfold bufWeight
      rw [if_neg hpotne]
      omega

/-! ### Claim C1 -/

/-- C1 (counterexample): the input `"aaa…a.bbb…b"` (61 characters) contains
the sentence terminator `.`, yet its single — hence final — chunk's trimmed
text ends in `b`, which is not a terminator: the chunker's sentence regex
finds no match (the `.` is not followed by whitespace), so the whole text
becomes one chunk.  The claim's only exemption is for inputs containing no
terminator at all, so the claim as stated is false here. -/
theorem chunk_terminator_cex :
    (List.replicate 30 'a' ++ '.' :: List.replicate 30 'b').any isTerm = true ∧
      ((createSentenceBoundaryChunks
          (List.replicate 30 'a' ++ '.' :: List.replicate 30 'b') 800 1200).map
        fun ch => (trim ch.text).getLast?) = [some 'b'] ∧
      isTerm 'b' = false := by
  decide

/-- C1 (amended): every chunk's text ends in one of `.`, `!`, `?` unless the
sentence regex `/[^.!?]+[.!?]+(?=\s|$)/` finds no match in the input (no
terminator is followed by whitespace or end-of-input), in which case the
whole trimmed input is the only chunk, so no boundary splits a word. -/
theorem chunk_terminator_amended (text : List Char) (targetSize maxSize : Nat)
    (ch : TextChunk)
    (hch : ch ∈ createSentenceBoundaryChunks text targetSize maxSize) :
    (matchAll text ≠ [] → ∃ c, ch.text.getLast? = some c ∧ isTerm c = true) ∧
      (matchAll text = [] → ch.text = trim text) := by
  constructor
  · intro hne
    have hsent : sentencesOf text = matchAll text := by
      unfold sentencesOf
      cases hm : matchAll text with
      | nil => exact absurd hm hne
      | cons a as => rfl
    have hterm : ∀ s ∈ sentencesOf text,
        ∃ c, (trim s).getLast? = some c ∧ isTerm c = true := by
      rw [hsent]
      intro s hs
      obtain ⟨c, hc, hct⟩ := matchAll_ends_term s hs
      exact ⟨c, getLast?_trim hc (isTerm_not_ws hct), hct⟩
    have hinv := chunkFold_ends_term (t := targetSize) (m := maxSize)
      (sentencesOf text) ⟨[], [], 0, 0⟩ hterm (by intro x hx; cases hx) (Or.inl rfl)
    simp only [createSentenceBoundaryChunks] at hch
    by_cases hfin : 50 < (trim ((sentencesOf text).foldl
        (chunkStep targetSize maxSize) ⟨[], [], 0, 0⟩).currentChunk).length
    · rw [if_pos hfin] at hch
      rcases List.mem_append.mp hch with hch' | hch'
      · exact hinv.1 ch hch'
      · rw [List.mem_singleton.mp hch']
        rcases hinv.2 with hnil | ⟨c, hc, hct⟩
        · rw [hnil] at hfin
          cases hfin
        · exact ⟨c, getLast?_trim hc (isTerm_not_ws hct), hct⟩
    · rw [if_neg hfin] at hch
      exact hinv.1 ch hch
  · intro hm
    have hsent : sentencesOf text = [text] := by unfold sentencesOf; rw [hm]
    simp only [createSentenceBoundaryChunks, hsent, List.foldl_cons,
      List.foldl_nil] at hch
    rcases chunkStep_eq targetSize maxSize ⟨[], [], 0, 0⟩ text with
      ⟨heq, htr⟩ | ⟨hts, ⟨heq, hlen⟩ | heq⟩
    · rw [heq] at hch
      rw [if_neg (by decide)] at hch
      cases hch
    · cases hlen
    · rw [heq] at hch
      simp only [List.isEmpty_nil, if_true, List.nil_append] at hch
      by_cases hfin : 50 < (trim (trim text)).length
      · rw [if_pos hfin] at hch
        rw [List.mem_singleton.mp hch]
        exact trim_idem text
      · rw [if_neg hfin] at hch
        cases hch

/-- C1 (witness): a 57-character single-sentence input produces one chunk
and it ends in a terminator. -/
theorem chunk_terminator_witness :
    ∃ c, (TextChunk.mk (List.replicate 56 'a' ++ ['.']) 0 57 0).text.getLast?
        = some c ∧ isTerm c = true := by
  have h := chunk_terminator_amended (List.replicate 56 'a' ++ ['.']) 800 1200
    ⟨List.replicate 56 'a' ++ ['.'], 0, 57, 0⟩ (by decide)
  exact h.1 (by decide)

/-! ### Claim C4 -/

set_option maxRecDepth 40000 in
/-- C4 (counterexample): a single 1501-character sentence is emitted whole as
one chunk of length 1501 > 1500; the upper half of the claim fails. -/
theorem chunk_length_cex :
    ((createSentenceBoundaryChunks (List.replicate 1500 'a' ++ ['.']) 800 1200).map
        fun ch => ch.text.length) = [1501] ∧
      ¬ (1501 : Nat) ≤ 1500 := by
  constructor
  · decide
  · decide

/-- C4 (amended): every chunk the sentence-boundary chunker emits has text
length strictly greater than 50 (non-final chunks exceed 100); there is no
1500-character upper bound. -/
theorem chunk_length_amended (text : List Char) (targetSize maxSize : Nat)
    (ch : TextChunk)
    (hch : ch ∈ createSentenceBoundaryChunks text targetSize maxSize) :
    50 < ch.text.length := by
  have hinv := chunkFold_len (t := targetSize) (m := maxSize)
    (sentencesOf text) ⟨[], [], 0, 0⟩ (by intro x hx; cases hx) rfl
  simp only [createSentenceBoundaryChunks] at hch
  by_cases hfin : 50 < (trim ((sentencesOf text).foldl
      (chunkStep targetSize maxSize) ⟨[], [], 0, 0⟩).currentChunk).length
  · rw [if_pos hfin] at hch
    rcases List.mem_append.mp hch with hch' | hch'
    · exact hinv.1 ch hch'
    · rw [List.mem_singleton.mp hch']
      exact hfin
  · rw [if_neg hfin] at hch
    exact hinv.1 ch hch

/-- C4 (witness): the single chunk of a 57-character input has length 57 > 50. -/
theorem chunk_length_witness :
    50 < (TextChunk.mk (List.replicate 56 'a' ++ ['.']) 0 57 0).text.length :=
  chunk_length_amended (List.replicate 56 'a' ++ ['.']) 800 1200 _ (by decide)

/-! ### Claim C10 -/

/-- C10: any input whose trimmed length is at most 50 characters produces no
chunks at all: mid-loop emission needs a buffer over 100 characters and the
final fragment needs a trimmed length over 50, and the buffer never exceeds
the trimmed input length. -/
theorem short_input_no_chunks (text : List Char)
    (h : (trim text).length ≤ 50) :
    createSentenceBoundaryChunks text 800 1200 = [] := by
  have hweight : matchWeight (sentencesOf text) ≤ (trim text).length + 1 := by
    unfold sentencesOf
    cases hm : matchAll text with
    | nil => simp [matchWeight]
    | cons a as =>
      have hb := matchAll_weight_bound text
      rw [hm] at hb
      exact hb
  have hsmall := chunkFold_small (t := 800) (m := 1200) (L := 50) (by omega)
    (sentencesOf text) ⟨[], [], 0, 0⟩ rfl
    (by
      show bufWeight [] + matchWeight (sentencesOf text) ≤ 50 + 1
      rw [show bufWeight [] = 0 from rfl]
      omega)
  simp only [createSentenceBoundaryChunks]
  rw [if_neg ?_]
  · exact hsmall.1
  · have := length_trim_le ((sentencesOf text).foldl
      (chunkStep 800 1200) ⟨[], [], 0, 0⟩).currentChunk
    omega

/-- C10 (witness): a 16-character input yields no chunks. -/
theorem short_input_witness :
    createSentenceBoundaryChunks "Short text here.".toList 800 1200 = [] :=
  short_input_no_chunks "Short text here.".toList (by decide)

/-! ### Claim C7 -/

theorem sumSq_nonneg (l : List ℝ) : 0 ≤ sumSq l := by
  induction l with
  | nil => simp [sumSq]
  | cons x xs ih =>
    simp only [sumSq, List.map_cons, List.sum_cons]
    have := mul_self_nonneg x
    simp only [sumSq] at ih
    nlinarith

theorem sumSq_eq_zero {l : List ℝ} (h : sumSq l = 0) : ∀ x ∈ l, x = 0 := by
  induction l with
  | nil => intro x hx; cases hx
  | cons y ys ih =>
    simp only [sumSq, List.map_cons, List.sum_cons] at h
    have h1 : 0 ≤ y * y := mul_self_nonneg y
    have h2 : 0 ≤ sumSq ys := sumSq_nonneg ys
    simp only [sumSq] at h2
    have hy : y * y = 0 := by nlinarith
    have hys : (ys.map fun x => x * x).sum = 0 := by nlinarith
    intro x hx
    rcases List.mem_cons.mp hx with rfl | hx'
    · exact mul_self_eq_zero.mp hy
    · exact ih hys x hx'

theorem sumSq_map_div (l : List ℝ) (m : ℝ) :
    sumSq (l.map fun x => x / m) = sumSq l / (m * m) := by
  induction l with
  | nil => simp [sumSq]
  | cons x xs ih =>
    simp only [sumSq, List.map_cons, List.sum_cons] at *
    rw [ih, div_mul_div_comm, add_div]

theorem rawEmbedding_length (text : List Char) : (rawEmbedding text).length = 128 := by
  unfold rawEmbedding
  have hgen : ∀ (ps : List (Nat × List Char)) (init : List ℚ),
      (ps.foldl (fun embedding iw =>
        let index := (hashString iw.2).natAbs % 128
        let embedding1 := listAddAt embedding index 1
        let posIndex := (index + iw.1) % 128
        listAddAt embedding1 posIndex (1 / 2)) init).length = init.length := by
    intro ps
    induction ps with
    | nil => intro init; rfl
    | cons p ps ih =>
      intro init
      rw [List.foldl_cons, ih]
      simp [listAddAt]
  rw [hgen]
  simp

/-- C7: the embedding always has exactly 128 components; its L2 norm is 1,
except that a zero pre-normalization magnitude would leave the all-zero
vector (the normalization is skipped exactly when the magnitude is not
positive). -/
theorem embedding_normalized (text : List Char) :
    (generateEmbedding text).length = 128 ∧
      (Real.sqrt (sumSq (generateEmbedding text)) = 1 ∨
        (Real.sqrt (sumSq (List.map (fun q : ℚ => (q : ℝ)) (rawEmbedding text))) = 0 ∧
          generateEmbedding text = List.replicate 128 0)) := by
  have hraw := rawEmbedding_length text
  have hlen : (List.map (fun q : ℚ => (q : ℝ)) (rawEmbedding text)).length = 128 := by
    rw [List.length_map]
    exact hraw
  simp only [generateEmbedding]
  set e := List.map (fun q : ℚ => (q : ℝ)) (rawEmbedding text) with he
  have hnn : 0 ≤ sumSq e := sumSq_nonneg e
  by_cases hpos : 0 < Real.sqrt (sumSq e)
  · rw [if_pos hpos]
    refine ⟨by simp [hlen], Or.inl ?_⟩
    have hsq : Real.sqrt (sumSq e) * Real.sqrt (sumSq e) = sumSq e :=
      Real.mul_self_sqrt hnn
    have hspos : sumSq e ≠ 0 := by
      intro h0
      rw [h0, Real.sqrt_zero] at hpos
      exact lt_irrefl 0 hpos
    rw [sumSq_map_div, hsq, div_self hspos, Real.sqrt_one]
  · rw [if_neg hpos]
    have hzero : Real.sqrt (sumSq e) = 0 :=
      le_antisymm (not_lt.mp hpos) (Real.sqrt_nonneg _)
    have hs0 : sumSq e = 0 := (Real.sqrt_eq_zero hnn).mp hzero
    refine ⟨hlen, Or.inr ⟨hzero, ?_⟩⟩
    exact List.eq_replicate_iff.mpr ⟨hlen, fun b hb => sumSq_eq_zero hs0 b hb⟩

/-! ### Claim C3 -/

/-- Folding the per-word keyword boost adds `0.1` per matching word. -/
theorem foldl_boost (tl : List Char) :
    ∀ (wordList : List (List Char)) (init : ℝ),
      wordList.foldl
          (fun score word => if containsSub tl word then score + 1 / 10 else score)
          init =
        init + ((wordList.filter fun w => containsSub tl w).length : ℝ) * (1 / 10) := by
  intro wordList
  induction wordList with
  | nil => intro init; simp
  | cons w rest ih =>
    intro init
    rw [List.foldl_cons]
    by_cases h : containsSub tl w
    · rw [if_pos h, ih, List.filter_cons_of_pos (by simpa using h)]
      simp only [List.length_cons]
      push_cast
      ring
    · rw [if_neg h, ih, List.filter_cons_of_neg (by simpa using h)]

/-- C3: retrieval returns at most `topK` results, drawn from the candidate
list, sorted by descending final score, where each final score is the cosine
similarity to the query embedding plus `0.1` per (whitespace-split,
lowercased) query word occurring as a substring of the lowercased chunk
text; `topK` defaults to 5. -/
theorem search_topk (query : List Char) (chunks : List Chunk) (topK : Nat) :
    (searchChunks query chunks topK).length ≤ topK ∧
      List.Sorted (fun a b : ScoredChunk => b.score ≤ a.score)
        (searchChunks query chunks topK) ∧
      (searchChunks query chunks topK).Forall (fun r =>
        r.chunk ∈ chunks ∧
          r.score =
            cosineSimilarity (generateEmbedding query) r.chunk.embedding +
              (((splitWs (jsToLower query)).filter fun w =>
                  containsSub (jsToLower r.chunk.text) w).length : ℝ) * (1 / 10)) ∧
      searchChunks query chunks = searchChunks query chunks 5 := by
  haveI hTot : IsTotal ScoredChunk (fun a b => b.score ≤ a.score) :=
    ⟨fun a b => le_total b.score a.score⟩
  haveI hTrans : IsTrans ScoredChunk (fun a b => b.score ≤ a.score) :=
    ⟨fun _ _ _ hab hbc => le_trans hbc hab⟩
  refine ⟨?_, ?_, ?_, rfl⟩
  · simp only [searchChunks]
    exact List.length_take_le _ _
  · simp only [searchChunks]
    exact (List.sorted_insertionSort _ _).sublist (List.take_sublist _ _)
  · simp only [searchChunks]
    rw [List.forall_iff_forall_mem]
    intro r hr
    have hr1 : r ∈ List.insertionSort (fun a b => b.score ≤ a.score)
        (List.map _ (chunks.map fun chunk =>
          ScoredChunk.mk chunk
            (cosineSimilarity (generateEmbedding query) chunk.embedding))) :=
      List.mem_of_mem_take hr
    have hr2 := (List.perm_insertionSort _ _).mem_iff.mp hr1
    rw [List.map_map, List.mem_map] at hr2
    obtain ⟨c, hc, hceq⟩ := hr2
    subst hceq
    refine ⟨hc, ?_⟩
    simp only [Function.comp]
    rw [foldl_boost]

/-! ### Claim C2 -/

theorem structureTable_ok {run : List (List TextItem)} (page idx : Nat)
    (hlen : 3 ≤ run.length) (hrows : ∀ row ∈ run, 2 ≤ row.length) :
    2 ≤ (structureTable run page idx).data.length ∧
      2 ≤ (structureTable run page idx).headers.length ∧
      ∀ row ∈ (structureTable run page idx).data, 2 ≤ row.length := by
  cases run with
  | nil => cases hlen
  | cons a rest =>
    unfold structureTable
    simp only [List.headD_cons, List.tail_cons]
    refine ⟨?_, ?_, ?_⟩
    · simp only [List.length_map]
      simp only [List.length_cons] at hlen
      omega
    · simp only [List.length_map]
      exact hrows a (List.mem_cons_self a rest)
    · intro row hrow
      rw [List.mem_map] at hrow
      obtain ⟨row0, hrow0, hroweq⟩ := hrow
      subst hroweq
      simp only [List.length_map]
      exact hrows row0 (List.mem_cons_of_mem a hrow0)

theorem detectTablesLoop_ok (page : Nat) :
    ∀ (rows : List (List TextItem)) (tables : List ExtractedTable)
      (currentTable : List (List TextItem)) (prev : Int),
      (∀ t ∈ tables, 2 ≤ t.data.length ∧ 2 ≤ t.headers.length ∧
        ∀ row ∈ t.data, 2 ≤ row.length) →
      (∀ row ∈ currentTable, 2 ≤ row.length) →
      ∀ t ∈ detectTablesLoop page rows tables currentTable prev,
        2 ≤ t.data.length ∧ 2 ≤ t.headers.length ∧
          ∀ row ∈ t.data, 2 ≤ row.length := by
  intro rows
  induction rows with
  | nil =>
    intro tables ct prev htab hct t ht
    unfold detectTablesLoop at ht
    split at ht
    · rename_i hflush
      rcases List.mem_append.mp ht with ht' | ht'
      · exact htab t ht'
      · rw [List.mem_singleton.mp ht']
        exact structureTable_ok page tables.length hflush hct
    · exact htab t ht
  | cons row rest ih =>
    intro tables ct prev htab hct t ht
    simp only [detectTablesLoop] at ht
    by_cases hcond : 2 ≤ (row.length : Int) ∧
        (ct.length = 0 ∨ ((row.length : Int) - prev).natAbs ≤ 2)
    · rw [if_pos hcond] at ht
      have hrow2 : 2 ≤ row.length := by exact_mod_cast hcond.1
      refine ih tables (ct ++ [row]) _ htab ?_ t ht
      intro r hr
      rcases List.mem_append.mp hr with hr' | hr'
      · exact hct r hr'
      · rw [List.mem_singleton.mp hr']
        exact hrow2
    · rw [if_neg hcond] at ht
      have htab' : ∀ t' ∈ (if 3 ≤ ct.length then
          tables ++ [structureTable ct page tables.length] else tables),
          2 ≤ t'.data.length ∧ 2 ≤ t'.headers.length ∧
            ∀ r ∈ t'.data, 2 ≤ r.length := by
        split
        · rename_i hflush
          intro t' ht'
          rcases List.mem_append.mp ht' with h' | h'
          · exact htab t' h'
          · rw [List.mem_singleton.mp h']
            exact structureTable_ok page tables.length hflush hct
        · exact htab
      refine ih _ _ _ htab' ?_ t ht
      split
      · rename_i h2
        intro r hr
        rw [List.mem_singleton.mp hr]
        exact_mod_cast h2
      · intro r hr
        cases hr

/-- C2 (amended): every table produced by the reconstructor has at least two
data rows, at least two header cells, and every data row has at least two
cells; successive row cell counts in a run differ by at most two, so data
rows need not match the header count exactly. -/
theorem table_shape_amended (items : List TextItem) (pageNum : Nat) :
    (detectTables items pageNum).Forall fun t =>
      2 ≤ t.data.length ∧ 2 ≤ t.headers.length ∧
        t.data.Forall fun row => 2 ≤ row.length := by
  rw [List.forall_iff_forall_mem]
  intro t ht
  unfold detectTables at ht
  split at ht
  · cases ht
  · have := detectTablesLoop_ok pageNum (sortedRows items) [] [] 0
      (by intro t' ht'; cases ht') (by intro r hr; cases hr) t ht
    refine ⟨this.1, this.2.1, ?_⟩
    rw [List.forall_iff_forall_mem]
    exact this.2.2

/-- C2 (counterexample): a run of three rows with 2, 4, 2 nonempty items
(adjacent column counts differ by exactly 2) is promoted to a table whose
first data row has 4 cells while the header row has 2, refuting
`len(headers) == len(row)`. -/
theorem table_shape_cex :
    ¬ ∀ t ∈ detectTables
        [⟨['a'], 0, 100⟩, ⟨['b'], 10, 100⟩,
          ⟨['c'], 0, 90⟩, ⟨['d'], 5, 90⟩, ⟨['e'], 10, 90⟩, ⟨['f'], 15, 90⟩,
          ⟨['g'], 0, 80⟩, ⟨['h'], 10, 80⟩] 1,
        ∀ row ∈ t.data, row.length = t.headers.length := by
  decide

/-! ### Claim C6 -/

/-- C6 (counterexample): a page whose extracted text has length 30 (strictly
between 20 and 50) with zero images is marked `hasText = true` by the source
(`pageText.length > 20`), i.e. it is treated as a text-bearing page — not as
EMPTY as the claim's 50-character TEXT threshold would demand. -/
theorem classify_midband_cex :
    (trim (joinSep [' '] [List.replicate 30 'a'])).length = 30 ∧
      (classifyPage [List.replicate 30 'a'] 0 1).hasText = true := by
  decide

/-- C6 (amended): for every page whose extracted (joined, trimmed) text
length lies strictly between 20 and 50 and whose image count is 0, the
classifier in `detectImageOnlyPages` sets `hasText = true` and
`isImageOnly = false`: its text threshold is 20, not 50, so the page counts
as a text page rather than EMPTY. -/
theorem classify_midband_amended (strs : List (List Char))
    (imageCount pageNum : Nat)
    (h1 : 20 < (trim (joinSep [' '] strs)).length)
    (h2 : (trim (joinSep [' '] strs)).length < 50)
    (h3 : imageCount = 0) :
    (classifyPage strs imageCount pageNum).hasText = true ∧
      (classifyPage strs imageCount pageNum).isImageOnly = false := by
  unfold classifyPage
  constructor
  · exact decide_eq_true h1
  · show (!decide (20 < (trim (joinSep [' '] strs)).length)
        && decide (0 < imageCount)) = false
    rw [h3]
    simp [decide_eq_true h1]

/-- C6 (witness): the amended classification at text length 30, image count 0. -/
theorem classify_midband_witness :
    (classifyPage [List.replicate 30 'a'] 0 1).hasText = true ∧
      (classifyPage [List.replicate 30 'a'] 0 1).isImageOnly = false :=
  classify_midband_amended [List.replicate 30 'a'] 0 1 (by decide) (by decide) rfl

/-! ### Claim C9 -/

/-- C9: when the Q&A service call fails, `sendMessage` surfaces the error
(the outcome is not ok and an error message is set), the message list is
exactly the pre-send list (the optimistic user message is rolled back), and
nothing is persisted to the chat history store. -/
theorem send_message_rollback (documentId apiKey provider content : List Char)
    (messages : List ChatMessage) (chunks : List Chunk) (now : Nat)
    (e : List Char) :
    (sendMessage documentId apiKey provider content messages chunks now
        (.error e)).ok = false ∧
      (sendMessage documentId apiKey provider content messages chunks now
        (.error e)).errorMsg.isSome = true ∧
      (sendMessage documentId apiKey provider content messages chunks now
        (.error e)).messages = messages ∧
      (sendMessage documentId apiKey provider content messages chunks now
        (.error e)).saved = none := by
  unfold sendMessage
  by_cases hg : documentId.isEmpty ∨ apiKey.isEmpty ∨ (trim content).isEmpty
  · rw [if_pos hg]
    exact ⟨rfl, rfl, rfl, rfl⟩
  · rw [if_neg hg]
    exact ⟨rfl, rfl, rfl, rfl⟩

/-! ### Claim C8 -/

theorem groupStep_inv {gs : List (List ExtractedPage)} {cur : List ExtractedPage}
    (page : ExtractedPage) (h : GroupInv gs cur) :
    GroupInv (groupStep (gs, cur) page).1 (groupStep (gs, cur) page).2 ∧
      (groupStep (gs, cur) page).1.flatten ++ (groupStep (gs, cur) page).2 =
        gs.flatten ++ cur ++ [page] := by
  obtain ⟨hGood, hEmp, hCur, hBrk⟩ := h
  unfold groupStep
  cases hg : cur.getLast? with
  | none =>
    have hcurnil : cur = [] := List.getLast?_eq_none_iff.mp hg
    have hgs : gs = [] := hEmp hcurnil
    subst hcurnil
    subst hgs
    refine ⟨⟨?_, ?_, ?_, ?_⟩, ?_⟩
    · intro g hgmem; cases hgmem
    · intro h'; rfl
    · simp
    · simp
    · simp
  | some lastPage =>
    have hcurne : cur ≠ [] := by intro h'; rw [h'] at hg; cases hg
    rw [if_neg hcurne] at hBrk
    dsimp only
    by_cases hadj : page.page = lastPage.page + 1
    · rw [if_pos hadj]
      have hcons : cur ++ [page] ≠ [] := by simp
      refine ⟨⟨hGood, fun h' => absurd h' hcons, ?_, ?_⟩, ?_⟩
      · refine List.chain'_append.mpr ⟨hCur, List.chain'_singleton page, ?_⟩
        intro x hx y hy
        rw [hg, Option.mem_some_iff] at hx
        simp only [List.head?_cons, Option.mem_some_iff] at hy
        rw [← hx, ← hy]
        exact hadj
      · rw [if_neg hcons]
        obtain ⟨hbgs, -, hlink⟩ := List.chain'_append.mp hBrk
        refine List.chain'_append.mpr ⟨hbgs, List.chain'_singleton _, ?_⟩
        intro x hx y hy
        simp only [List.head?_cons, Option.mem_some_iff] at hy
        subst hy
        have := hlink x hx cur (by simp)
        rwa [List.head?_append_of_ne_nil _ hcurne]
      · simp
    · rw [if_neg hadj]
      have hpane : ([page] : List ExtractedPage) ≠ [] := by simp
      refine ⟨⟨?_, ?_, ?_, ?_⟩, ?_⟩
      · intro g hgmem
        rcases List.mem_append.mp hgmem with h' | h'
        · exact hGood g h'
        · rw [List.mem_singleton.mp h']
          exact ⟨hcurne, hCur⟩
      · intro h'; exact absurd h' hpane
      · simp
      · rw [if_neg hpane]
        refine List.chain'_append.mpr ⟨hBrk, List.chain'_singleton _, ?_⟩
        intro x hx y hy
        rw [List.getLast?_concat, Option.mem_some_iff] at hx
        simp only [List.head?_cons, Option.mem_some_iff] at hy
        subst hx
        subst hy
        rw [hg]
        show ¬ some (lastPage.page + 1) = some page.page
        intro hcontra
        exact hadj (Option.some.inj hcontra).symm
      · simp

theorem groupFold_inv (imgs : List ExtractedPage) :
    ∀ (gs : List (List ExtractedPage)) (cur : List ExtractedPage),
      GroupInv gs cur →
      GroupInv (imgs.foldl groupStep (gs, cur)).1
          (imgs.foldl groupStep (gs, cur)).2 ∧
        (imgs.foldl groupStep (gs, cur)).1.flatten ++
            (imgs.foldl groupStep (gs, cur)).2 =
          gs.flatten ++ cur ++ imgs := by
  induction imgs with
  | nil =>
    intro gs cur h
    exact ⟨h, by simp⟩
  | cons page rest ih =>
    intro gs cur h
    rw [List.foldl_cons]
    have hstep := groupStep_inv page h
    have hrec := ih (groupStep (gs, cur) page).1 (groupStep (gs, cur) page).2 hstep.1
    refine ⟨hrec.1, ?_⟩
    rw [hrec.2, hstep.2]
    simp

/-- C8 (amended): the image-only pages (in document order) are partitioned
into nonempty maximal runs of page-adjacent pages (consecutive groups are
separated by a genuine break), and each run contributes exactly one
synthesised section — titled `Image Content (Pages A–B)` for a multi-page
run and `Image Content (Page A)` for a single page, with the pages' texts
joined by blank lines as content — all of which appear in the output of
`extractSections`. -/
theorem image_sections_amended (pages : List ExtractedPage) :
    (groupImagePages (pages.filter fun p => p.isImageOnly)).flatten =
        pages.filter (fun p => p.isImageOnly) ∧
      (groupImagePages (pages.filter fun p => p.isImageOnly)).Forall
        (fun g => g ≠ [] ∧ List.Chain' (fun p q => q.page = p.page + 1) g) ∧
      List.Chain'
        (fun g h => (g.getLast?.map fun p => p.page + 1) ≠ h.head?.map fun p => p.page)
        (groupImagePages (pages.filter fun p => p.isImageOnly)) ∧
      List.Subperm
        ((groupImagePages (pages.filter fun p => p.isImageOnly)).map mkImageSection)
        (extractSections pages) := by
  have hinv0 : GroupInv [] [] := by
    unfold GroupInv
    exact ⟨fun g hg => absurd hg (by simp), fun _ => rfl, List.chain'_nil, by simp⟩
  have hinv := groupFold_inv (pages.filter fun p => p.isImageOnly) [] [] hinv0
  unfold GroupInv at hinv
  obtain ⟨⟨hGood, hEmp, hCur, hBrk⟩, hflat⟩ := hinv
  simp only [List.flatten_nil, List.nil_append] at hflat
  have hez0 := Decidable.em ((List.foldl groupStep ([], [])
    (pages.filter fun p => p.isImageOnly)).2.length = 0)
  constructor
  · -- the groups partition the filtered pages
    simp only [groupImagePages]
    rcases hez0 with hez | hez
    · rw [if_pos hez]
      have hcurnil := List.length_eq_zero.mp hez
      rw [hcurnil, List.append_nil] at hflat
      exact hflat
    · rw [if_neg hez, List.flatten_append]
      simpa using hflat
  · refine ⟨?_, ?_, ?_⟩
    · -- every group is a nonempty adjacent run
      rw [List.forall_iff_forall_mem]
      intro g hgmem
      simp only [groupImagePages] at hgmem
      rcases hez0 with hez | hez
      · rw [if_pos hez] at hgmem
        exact hGood g hgmem
      · rw [if_neg hez] at hgmem
        rcases List.mem_append.mp hgmem with h' | h'
        · exact hGood g h'
        · rw [List.mem_singleton.mp h']
          exact ⟨fun h'' => hez (by rw [h'']; rfl), hCur⟩
    · -- consecutive groups are separated by an adjacency break
      simp only [groupImagePages]
      rcases hez0 with hez | hez
      · rw [if_pos hez]
        have hcurnil := List.length_eq_zero.mp hez
        rw [hcurnil, if_pos rfl, List.append_nil] at hBrk
        exact hBrk
      · rw [if_neg hez]
        have hcurne : (List.foldl groupStep ([], [])
            (pages.filter fun p => p.isImageOnly)).2 ≠ [] := by
          intro h''
          exact hez (by rw [h'']; rfl)
        rw [if_neg hcurne] at hBrk
        exact hBrk
    · -- each group's section occurs in the sorted output
      simp only [extractSections]
      have hsub : List.Sublist ((groupImagePages (pages.filter fun p => p.isImageOnly)).map
          mkImageSection)
          ((if (secMatches (joinSep ('\n' :: ['\n'])
              ((pages.filter fun p => !p.isImageOnly).map fun p => p.text))).length = 0 ∧
              50 < (trim (joinSep ('\n' :: ['\n'])
                ((pages.filter fun p => !p.isImageOnly).map fun p => p.text))).length then
            paraSections (joinSep ('\n' :: ['\n'])
              ((pages.filter fun p => !p.isImageOnly).map fun p => p.text))
              (pages.filter fun p => !p.isImageOnly).length
          else if 0 < (secMatches (joinSep ('\n' :: ['\n'])
              ((pages.filter fun p => !p.isImageOnly).map fun p => p.text))).length then
            matchSectionsGo (joinSep ('\n' :: ['\n'])
              ((pages.filter fun p => !p.isImageOnly).map fun p => p.text))
              (pages.filter fun p => !p.isImageOnly).length
              (secMatches (joinSep ('\n' :: ['\n'])
                ((pages.filter fun p => !p.isImageOnly).map fun p => p.text))) 0
          else []) ++
            (groupImagePages (pages.filter fun p => p.isImageOnly)).map mkImageSection) :=
        List.sublist_append_right _ _
      set base := _ ++ (groupImagePages (pages.filter fun p => p.isImageOnly)).map
        mkImageSection with hbase
      by_cases hempty : base.length = 0
      · have : (groupImagePages (pages.filter fun p => p.isImageOnly)).map
            mkImageSection = [] := by
          have := List.length_eq_zero.mp hempty
          rw [this] at hsub
          exact List.sublist_nil.mp hsub
        rw [this]
        exact List.nil_subperm
      · rw [if_neg hempty]
        exact hsub.subperm.trans (List.perm_insertionSort _ _).symm.subperm

/-- C8 (counterexample): for two adjacent image-only pages 1–2 the single
synthesised section is titled `Image Content (Pages 1â€“2)` (the source's
mis-encoded en dash), not `Visual Content (Pages 1–2)`; a single-page run is
titled `Image Content (Page 5)`, not `Page 5`; and the content is the pages'
texts joined by a blank line, not the joined image descriptions. -/
theorem image_sections_cex :
    ((extractSections [⟨1, "T1".toList, true, "D1".toList⟩,
        ⟨2, "T2".toList, true, "D2".toList⟩]).map fun s => s.title) =
        ["Image Content (Pages 1â€“2)".toList] ∧
      "Image Content (Pages 1â€“2)".toList ≠ "Visual Content (Pages 1–2)".toList ∧
      ((extractSections [⟨1, "T1".toList, true, "D1".toList⟩,
          ⟨2, "T2".toList, true, "D2".toList⟩]).map fun s => s.content) =
        ["T1\n\nT2".toList] ∧
      "T1\n\nT2".toList ≠ "D1\n\nD2".toList ∧
      ((extractSections [⟨5, "img".toList, true, "img".toList⟩]).map
          fun s => s.title) = ["Image Content (Page 5)".toList] ∧
      "Image Content (Page 5)".toList ≠ "Page 5".toList := by
  decide

/-! ### Claim C5 -/

/-- C5: for every page list the section builder returns at least one
section and the result is sorted by non-decreasing start page; on a fully
empty extraction (no pages at all) the single section carries the
placeholder content. -/
theorem sections_nonempty_sorted :
    (∀ pages : List ExtractedPage,
        1 ≤ (extractSections pages).length ∧
          List.Sorted (fun a b : Section => a.page ≤ b.page)
            (extractSections pages)) ∧
      extractSections [] =
        [{ title := "Section 1".toList,
           content := "No content extracted from this document.".toList,
           page := 1,
           bulletPoints := ["No text content available".toList] }] := by
  constructor
  · intro pages
    haveI : IsTotal Section (fun a b => a.page ≤ b.page) :=
      ⟨fun a b => le_total a.page b.page⟩
    haveI : IsTrans Section (fun a b => a.page ≤ b.page) :=
      ⟨fun _ _ _ => le_trans⟩
    constructor
    · have hgen : ∀ W : List Section,
          1 ≤ (if W.length = 0 then [fallbackSection pages] else W).length := by
        intro W
        split
        · simp
        · rename_i h
          omega
      simp only [extractSections]
      rw [(List.perm_insertionSort _ _).length_eq]
      exact hgen _
    · simp only [extractSections]
      exact List.sorted_insertionSort _ _
  · decide

end IR

